import Mathlib

/-!
# Verification of the GIPVA-PVI inference core

Shallow embedding of the partitioned variational inference core:
* `GIBNN.sample_posterior` / `GIBNN.propagate` (src/gi/gibnn.py), embedded
  symbolically: tensors, factors and distributions are represented by symbolic
  terms recording exactly which operations were applied to which operands, so
  that data-flow claims (which factor is evaluated at which inducing inputs,
  which weight samples the forward pass uses) become decidable statements.
* the freezing protocol `collect_vp` / `collect_frozen_vp` and the estimator
  `estimate_local_vfe` (src/experiments/utils/optimization.py).
* the schedulers `SequentialServer` / `SynchronousServer` (src/gi/server.py).
* the minibatch index arithmetic of the experiment drivers.

Python dictionaries are embedded as insertion-ordered association lists with
Python's update-in-place-or-append assignment semantics.  Python exceptions
(`KeyError`, `NameError`) are embedded with `Except String`.
-/

/-! ## Insertion-ordered dictionaries (Python `dict`)

Dicts built by the embedded code always have unique keys (assignment updates
the existing binding in place, otherwise appends), which `dictInsert` mirrors:
it replaces the first binding of the key keeping the insertion order,
otherwise appends at the end. -/

/-- Lookup in an association list, first match: Python `d[k]`, with `none`
in place of a raised `KeyError`. -/
def dictGet : List (String × α) → String → Option α
  | [], _ => none
  | p :: rest, k => if p.1 = k then some p.2 else dictGet rest k

/-- `d[k] = v` on a Python dict: update the existing binding in place if the
key is present, otherwise append the new binding at the end. -/
def dictInsert : List (String × α) → String → α → List (String × α)
  | [], k, v => [(k, v)]
  | p :: rest, k, v => if p.1 = k then (k, v) :: rest else p :: dictInsert rest k v

/-- Nested lookup `d[l][n]` for a dict of dicts. -/
def dictGet2 (d : List (String × List (String × α))) (l n : String) : Option α :=
  (dictGet d l).bind (fun layer => dictGet layer n)

/-- `d[l][n] = v` where `d[l]` defaults to a fresh empty dict. -/
def dictInsert2 (d : List (String × List (String × α))) (l n : String) (v : α) :
    List (String × List (String × α)) :=
  dictInsert d l (dictInsert ((dictGet d l).getD []) n v)

/-- The key sequence of a dict (`list(d.keys())`). -/
def dictKeys (d : List (String × α)) : List String := d.map Prod.fst

theorem dictGet_insert (d : List (String × α)) (k k' : String) (v : α) :
    dictGet (dictInsert d k v) k' = if k' = k then some v else dictGet d k' := by
  induction d with
  | nil =>
    by_cases h : k' = k
    · simp [dictInsert, dictGet, h]
    · have h2 : ¬ k = k' := fun hh => h hh.symm
      simp [dictInsert, dictGet, h, h2]
  | cons p rest ih =>
    by_cases hp : p.1 = k
    · by_cases h : k' = k
      · simp [dictInsert, dictGet, hp, h]
      · have h2 : ¬ k = k' := fun hh => h hh.symm
        have h3 : ¬ p.1 = k' := fun hh => h2 (hp.symm.trans hh)
        simp [dictInsert, dictGet, hp, h, h2, h3]
    · by_cases h : k' = k
      · subst h
        simp [dictInsert, dictGet, hp, ih]
      · simp [dictInsert, dictGet, hp, ih, h]

theorem dictKeys_insert (d : List (String × α)) (k : String) (v : α) :
    dictKeys (dictInsert d k v) =
      if k ∈ dictKeys d then dictKeys d else dictKeys d ++ [k] := by
  induction d with
  | nil => simp [dictInsert, dictKeys]
  | cons p rest ih =>
    by_cases hp : p.1 = k
    · have hmem : k ∈ dictKeys (p :: rest) := by
        simp only [dictKeys, List.map_cons]
        rw [hp.symm]
        exact List.mem_cons_self _ _
      rw [if_pos hmem]
      simp only [dictInsert, if_pos hp, dictKeys, List.map_cons]
      rw [hp]
    · have hne : ¬ k = p.1 := fun hh => hp hh.symm
      simp only [dictInsert, if_neg hp, dictKeys, List.map_cons]
      have ih' : List.map Prod.fst (dictInsert rest k v) =
          if k ∈ List.map Prod.fst rest then List.map Prod.fst rest
          else List.map Prod.fst rest ++ [k] := by
        simpa only [dictKeys] using ih
      by_cases hmem : k ∈ List.map Prod.fst rest
      · rw [if_pos (List.mem_cons_of_mem _ hmem), ih', if_pos hmem]
      · rw [if_neg (by
            intro hc
            rcases List.mem_cons.mp hc with h1 | h1
            exacts [hne h1, hmem h1])]
        rw [ih', if_neg hmem, List.cons_append]

theorem dictKeys_nodup_insert {d : List (String × α)} (hN : (dictKeys d).Nodup)
    (k : String) (v : α) : (dictKeys (dictInsert d k v)).Nodup := by
  rw [dictKeys_insert]
  by_cases hmem : k ∈ dictKeys d
  · rw [if_pos hmem]; exact hN
  · rw [if_neg hmem]
    refine List.Nodup.append hN (List.nodup_singleton k) ?_
    intro a ha hb
    rw [List.mem_singleton] at hb
    exact hmem (hb ▸ ha)

theorem dictGet_eq_none_iff (d : List (String × α)) (k : String) :
    dictGet d k = none ↔ k ∉ dictKeys d := by
  induction d with
  | nil => simp [dictGet, dictKeys]
  | cons p rest ih =>
    by_cases hp : p.1 = k
    · simp only [dictGet, if_pos hp, dictKeys, List.map_cons]
      constructor
      · intro h; cases h
      · intro h
        exact absurd (by rw [hp.symm]; exact List.mem_cons_self _ _) h
    · have hne : ¬ k = p.1 := fun hh => hp hh.symm
      simp only [dictGet, if_neg hp, dictKeys, List.map_cons, ih]
      simp [List.mem_cons, hne, dictKeys]

theorem dictGet_of_mem_nodup {d : List (String × α)} {k : String} {v : α} :
    (dictKeys d).Nodup → (k, v) ∈ d → dictGet d k = some v := by
  induction d with
  | nil => intro _ hmem; cases hmem
  | cons p rest ih =>
    intro hN hmem
    simp only [dictKeys, List.map_cons, List.nodup_cons] at hN
    obtain ⟨hnotin, hNr⟩ := hN
    rcases List.mem_cons.mp hmem with h | h
    · rw [h.symm]
      simp [dictGet]
    · have hp : ¬ p.1 = k := by
        intro hh
        apply hnotin
        rw [hh]
        exact List.mem_map.mpr ⟨(k, v), h, rfl⟩
      simp only [dictGet, if_neg hp]
      exact ih (by simpa only [dictKeys] using hNr) h

theorem dictGet_isSome_of_mem {d : List (String × α)} {k : String} {v : α} :
    (k, v) ∈ d → (dictGet d k).isSome := by
  induction d with
  | nil => intro hmem; cases hmem
  | cons p rest ih =>
    intro hmem
    by_cases hp : p.1 = k
    · simp [dictGet, hp]
    · rcases List.mem_cons.mp hmem with h | h
      · exact absurd (congrArg Prod.fst h).symm hp
      · simpa [dictGet, hp] using ih h

theorem dictGet2_insert2 (d : List (String × List (String × α))) (l₀ n₀ l n : String)
    (v : α) :
    dictGet2 (dictInsert2 d l₀ n₀ v) l n =
      if l = l₀ ∧ n = n₀ then some v else dictGet2 d l n := by
  unfold dictGet2 dictInsert2
  rw [dictGet_insert]
  by_cases hl : l = l₀
  · subst hl
    simp only [if_pos rfl, Option.some_bind, dictGet_insert]
    by_cases hn : n = n₀
    · simp [hn, dictGet_insert]
    · cases hget : dictGet d l with
      | none =>
        have hn2 : ¬ n₀ = n := fun hh => hn hh.symm
        simp [hn, hn2, hget, dictGet_insert, dictGet]
      | some layer => simp [hn, hget, dictGet_insert]
  · simp [hl]

/-! ## Symbolic embedding of `GIBNN` (src/gi/gibnn.py)

Tensors, distributions and factors are embedded as symbolic terms that record
which source operation produced them from which operands:
* `SymZ` — inducing-input tensors (`B.tile`, `B.mm(·, w, tr_b=True)`, the
  shared nonlinearity); a weight sample is referenced by the value of the
  random-state counter at which it was drawn (each `q.sample(key)` advances
  the counter by one, so the reference is unambiguous).
* `SymQ` — distributions: a layer prior, or a posterior extended by one
  factor evaluation `q *= t(z)` (natural-parameter combination); the term
  records which factor was evaluated at which inducing-input term.
* `SymW` — a weight sample: the posterior it was drawn from plus the
  random-state counter at the draw (`w[..., 0]` only drops the trailing unit
  dimension, which the symbolic terms do not carry).
* `SymKL` — `B.sum(q.kl(p), -1)`.
Sample counts and tensor shapes are not tracked (`S` only widens shapes). -/

/-- Symbolic inducing-input / activation tensor. -/
inductive SymZ where
  /-- A client's raw inducing-input tensor `z` (or a raw network input). -/
  | z (name : String)
  /-- `B.tile(v, S, 1, 1)`. -/
  | tile (v : SymZ)
  /-- `B.mm(v, w, tr_b=True)` against the weight sample drawn at
  random-state counter `ev`. -/
  | mm (v : SymZ) (ev : Nat)
  /-- `self.nonlinearity(v)`. -/
  | nonlin (v : SymZ)
deriving DecidableEq, Repr

/-- Symbolic distribution in natural-parameter form. -/
inductive SymQ where
  /-- A layer prior `p`. -/
  | prior (name : String)
  /-- `q * t(z)`: the posterior `q` combined, by natural-parameter addition,
  with the factor `t` evaluated at the inducing-input term `z`. -/
  | mulFactor (q : SymQ) (t : String) (z : SymZ)
deriving DecidableEq, Repr

/-- A weight sample `w`: `key, w = q.sample(key); w = w[..., 0]`. -/
structure SymW where
  /-- The posterior the sample was drawn from. -/
  q : SymQ
  /-- The random-state counter at the draw. -/
  ev : Nat
deriving DecidableEq, Repr

/-- Symbolic per-layer KL contribution. -/
inductive SymKL where
  /-- `B.sum(q.kl(p), -1)`. -/
  | sumKL (q : SymQ) (p : SymQ)
deriving DecidableEq, Repr

/-- The posterior cache `self._cache`: layer name to weight sample and KL. -/
abbrev GibnnCache := List (String × SymW × SymKL)

namespace GIBNN

/-- The inner loop `for t in ts[layer_name].values(): q *= t(_zs[client_name])`.
`zres` is the (lazy) evaluation of `_zs[client_name]` — looked up only when at
least one factor exists; an unbound `client_name` (empty `zs`) is a Python
`NameError`, an absent key a `KeyError`. -/
def mulFactors : List String → SymQ → Except String SymZ → Except String SymQ
  | [], q, _ => .ok q
  | t :: rest, q, zres => do
      let z ← zres
      mulFactors rest (SymQ.mulFactor q t z) zres

/-- The body of `for i, (layer_name, p) in enumerate(ps.items())`.
State: the remaining layers, the random-state counter `key`, the layer index
`i`, the cache, the propagated inducing inputs `_zs`, and the current value of
the Python loop variable `client_name` (`none` when still unbound). -/
def sampleLayers (ts : List (String × List (String × String))) (nLayers : Nat) :
    List (String × SymQ) → Nat → Nat → GibnnCache → List (String × SymZ) →
    Option String → Except String (Nat × GibnnCache)
  | [], key, _i, cache, _zs, _lastName => .ok (key, cache)
  | (lname, p) :: rest, key, i, cache, zsC, lastName => do
      -- `ts[layer_name]`
      let tsl ← match dictGet ts lname with
        | some l => Except.ok l
        | none => Except.error ("KeyError: ts " ++ lname)
      -- `_zs[client_name]`, with `client_name` the stale loop variable
      let zres : Except String SymZ := match lastName with
        | none => .error "NameError: client_name"
        | some cn => match dictGet zsC cn with
          | some zv => .ok zv
          | none => .error "KeyError: _zs"
      -- `q = p` then `for t in ts[layer_name].values(): q *= t(_zs[client_name])`
      let q ← mulFactors (tsl.map Prod.snd) p zres
      -- `key, w = q.sample(key); w = w[..., 0]`
      let w : SymW := ⟨q, key⟩
      let key := key + 1
      -- `kl_qp = B.sum(q.kl(p), -1)`
      let klv := SymKL.sumKL q p
      -- `self._cache[layer_name] = dict(w=w, kl=kl_qp)`
      let cache := dictInsert cache lname (w, klv)
      -- `for client_name, client_z in inducing_inputs.items(): ...`
      let zsC := zsC.map (fun cz =>
        (cz.1,
          let z2 := SymZ.mm cz.2 w.ev
          if i < nLayers - 1 then SymZ.nonlin z2 else z2))
      -- after that loop `client_name` is the last key of `_zs` (if any)
      let lastName := match (zsC.map Prod.fst).getLast? with
        | some c => some c
        | none => lastName
      sampleLayers ts nLayers rest key (i + 1) cache zsC lastName

/-- `GIBNN.sample_posterior` (src/gi/gibnn.py, lines 8-61): tile every
client's inducing inputs, then run the per-layer loop; returns the updated
random-state counter and the cache (`return key, self._cache`).  `cache0` is
the incoming `self._cache`. -/
def sample_posterior (key : Nat) (ps : List (String × SymQ))
    (ts : List (String × List (String × String))) (zs : List (String × SymZ))
    (cache0 : GibnnCache) : Except String (Nat × GibnnCache) :=
  let zsC := zs.map (fun p => (p.1, SymZ.tile p.2))
  let lastName := (zs.map Prod.fst).getLast?
  sampleLayers ts ps.length ps key 0 cache0 zsC lastName

end GIBNN

/-- A network input `x`; `dim` is `len(x.shape)`. -/
structure SymX where
  /-- `len(x.shape)`. -/
  dim : Nat
  /-- The symbolic tensor value. -/
  val : SymZ
deriving DecidableEq, Repr

namespace GIBNN

/-- The `S` property (src/gi/gibnn.py, lines 86-89): reads
`self._cache['layer0']['w']`; a fresh (empty) cache raises `KeyError`.
(The sample count itself, `w.shape[0]`, is not tracked symbolically; the
lookup is what matters.) -/
def S (cache : GibnnCache) : Except String SymW :=
  match dictGet cache "layer0" with
  | some wk => .ok wk.1
  | none => .error "KeyError: layer0"

/-- The loop `for i, (layer_name, layer_dict) in enumerate(self._cache.items())`
of `GIBNN.propagate`: `x = B.mm(x, layer_dict['w'], tr_b=True)`, then the
nonlinearity when `i < len(self._cache.keys()) - 1`. -/
def propagateLoop (nl : Nat) : Nat → GibnnCache → SymZ → SymZ
  | _, [], x => x
  | i, e :: rest, x =>
      let x2 := SymZ.mm x e.2.1.ev
      propagateLoop nl (i + 1) rest (if i < nl - 1 then SymZ.nonlin x2 else x2)

/-- `GIBNN.propagate` (src/gi/gibnn.py, lines 63-81): `None` guard on the
cache, tiling of 2-dimensional inputs to `[S, N, D]` (which reads `self.S`),
then the per-layer loop. -/
def propagate (cache? : Option GibnnCache) (x : SymX) : Except String (Option SymZ) :=
  match cache? with
  | none => .ok none
  | some cache =>
      let tiled : Except String SymZ :=
        if x.dim = 2 then
          match S cache with
          | .ok _ => .ok (SymZ.tile x.val)
          | .error e => .error e
        else .ok x.val
      match tiled with
      | .ok x0 => .ok (some (propagateLoop cache.length 0 cache x0))
      | .error e => .error e

/-- `GIBNN.__init__` (src/gi/gibnn.py, lines 4-6): `self._cache = dict()` —
the empty dict, not `None`. -/
def init_cache : Option GibnnCache := some []

/-- The cache states a `GIBNN` object can be in: the fresh state from
`__init__`, or the state after a successful `sample_posterior` call.  (The
`cache` setter exists in the source but no code in the repository calls it.) -/
inductive ReachableCache : Option GibnnCache → Prop where
  /-- `__init__`. -/
  | init : ReachableCache init_cache
  /-- A successful `sample_posterior` call overwrites the cache. -/
  | step (c : GibnnCache) (key : Nat) (ps : List (String × SymQ))
      (ts : List (String × List (String × String))) (zs : List (String × SymZ))
      (key' : Nat) (c' : GibnnCache) :
      ReachableCache (some c) →
      sample_posterior key ps ts zs c = .ok (key', c') →
      ReachableCache (some c')

end GIBNN

/-- Modelled from the spec (§4.3 output, §8): re-derive the network output by
manually folding `x` through the cached per-layer weight samples in layer
order — matrix product against the transposed weights, applying the shared
nonlinearity after every layer except the last, with the same samples in the
same order. -/
def specManualChain : List SymW → SymZ → SymZ
  | [], x => x
  | [w], x => SymZ.mm x w.ev
  | w :: w2 :: rest, x => specManualChain (w2 :: rest) (SymZ.nonlin (SymZ.mm x w.ev))

theorem propagateLoop_eq_chain :
    ∀ (cache : GibnnCache) (i nl : Nat) (x : SymZ), i + cache.length = nl →
      GIBNN.propagateLoop nl i cache x = specManualChain (cache.map (fun e => e.2.1)) x := by
  intro cache
  induction cache with
  | nil => intro i nl x _; rfl
  | cons e rest ih =>
    intro i nl x h
    cases rest with
    | nil =>
      simp only [List.length_cons, List.length_nil] at h
      have hlt : ¬ i < nl - 1 := by omega
      simp [GIBNN.propagateLoop, specManualChain, hlt]
    | cons e2 r2 =>
      simp only [List.length_cons] at h
      have hlt : i < nl - 1 := by omega
      simp only [GIBNN.propagateLoop, specManualChain, if_pos hlt, List.map_cons]
      exact ih (i + 1) nl _ (by simp only [List.length_cons]; omega)

/-- The posterior the code ACTUALLY builds at layer `layer0` for the
two-client input below: both factors `ta` and `tb` are evaluated at client
`b`'s tiled inducing inputs (the stale `client_name` loop variable). -/
def qStale : SymQ :=
  SymQ.mulFactor (SymQ.mulFactor (SymQ.prior "p0") "ta" (SymZ.tile (SymZ.z "b")))
    "tb" (SymZ.tile (SymZ.z "b"))

/-- The posterior the claim (spec §4.3 step 2) prescribes for the same input:
each client's factor evaluated at that client's OWN tiled inducing inputs. -/
def qOwn : SymQ :=
  SymQ.mulFactor (SymQ.mulFactor (SymQ.prior "p0") "ta" (SymZ.tile (SymZ.z "a")))
    "tb" (SymZ.tile (SymZ.z "b"))

/-- C1 (code_bug): in `GIBNN.sample_posterior` the factor loop
`for t in ts[layer_name].values(): q *= t(_zs[client_name])` (src/gi/gibnn.py,
line 32-33) does not bind `client_name`; it reuses the stale value left by the
preceding loop over `zs.items()` — the LAST client.  On the concrete input
with priors `ps = [layer0 ↦ p0]`, factors `ts = [layer0 ↦ [a ↦ ta, b ↦ tb]]`
and inducing inputs `zs = [a ↦ za, b ↦ zb]`, the code evaluates BOTH factors
at client b's tiled inducing inputs (`qStale`), whereas the claim says each
client's factor is evaluated at that client's own propagated tiled inputs
(`qOwn`); the two differ. -/
theorem GIBNN.sample_posterior_uses_stale_client_name :
    GIBNN.sample_posterior 0 [("layer0", SymQ.prior "p0")]
        [("layer0", [("a", "ta"), ("b", "tb")])]
        [("a", SymZ.z "a"), ("b", SymZ.z "b")] [] =
      .ok (1, [("layer0", (⟨qStale, 0⟩, SymKL.sumKL qStale (SymQ.prior "p0")))])
    ∧ qStale ≠ qOwn := by
  exact ⟨rfl, by decide⟩

/-- C8: for every cache produced by a `sample_posterior` call and every input
`x`, `propagate(x)` equals the output of manually folding `x` through the
cached per-layer weight samples in layer order (nonlinearity after every layer
but the last), with the same samples in the same order and no re-sampling:
for a 3-dimensional input the fold starts at `x` itself, for a 2-dimensional
input at the tiled `x` (the tiling path reads `self.S`, i.e. needs the
`layer0` cache entry). -/
theorem GIBNN.propagate_matches_manual_chain (key : Nat) (ps : List (String × SymQ))
    (ts : List (String × List (String × String))) (zs : List (String × SymZ))
    (cache0 : GibnnCache) (key' : Nat) (cache : GibnnCache) (x : SymX)
    (h : GIBNN.sample_posterior key ps ts zs cache0 = .ok (key', cache)) :
    (x.dim ≠ 2 →
      GIBNN.propagate (some cache) x =
        .ok (some (specManualChain (cache.map (fun e => e.2.1)) x.val)))
    ∧ (x.dim = 2 → ∀ wk, dictGet cache "layer0" = some wk →
      GIBNN.propagate (some cache) x =
        .ok (some (specManualChain (cache.map (fun e => e.2.1)) (SymZ.tile x.val)))) := by
  constructor
  · intro hdim
    simp only [GIBNN.propagate, if_neg hdim]
    rw [propagateLoop_eq_chain cache 0 cache.length x.val (by omega)]
  · intro hdim wk hget
    simp only [GIBNN.propagate, if_pos hdim, GIBNN.S, hget]
    rw [propagateLoop_eq_chain cache 0 cache.length (SymZ.tile x.val) (by omega)]

/-- A concrete cache produced by `sample_posterior` (the run of
`GIBNN.sample_posterior_uses_stale_client_name`), used to instantiate
hypotheses. -/
def exampleCache : GibnnCache :=
  [("layer0", (⟨qStale, 0⟩, SymKL.sumKL qStale (SymQ.prior "p0")))]

/-- Witness for C8 at a concrete run: the cache of the two-client example and
a 3-dimensional input. -/
theorem GIBNN.propagate_matches_manual_chain_witness :
    GIBNN.propagate (some exampleCache) ⟨3, SymZ.z "x"⟩ =
      .ok (some (specManualChain (exampleCache.map (fun e => e.2.1)) (SymZ.z "x"))) :=
  (GIBNN.propagate_matches_manual_chain 0 [("layer0", SymQ.prior "p0")]
    [("layer0", [("a", "ta"), ("b", "tb")])]
    [("a", SymZ.z "a"), ("b", SymZ.z "b")] [] 1 exampleCache ⟨3, SymZ.z "x"⟩ rfl).1
    (by decide)

/-- C10: a freshly constructed `GIBNN` has `self._cache = dict()` (the empty
dict), not `None`; every reachable cache state (fresh, or written by
`sample_posterior`) is non-`None`, so the `if self._cache is None: return
None` guard in `propagate` never fires; and calling `propagate` on a
2-dimensional input before any `sample_posterior` call raises the `KeyError`
of the `S` property's `self._cache['layer0']` lookup instead of returning
`None`. -/
theorem GIBNN.fresh_cache_guard_unreachable :
    GIBNN.init_cache ≠ none
    ∧ (∀ oc, GIBNN.ReachableCache oc → oc ≠ none)
    ∧ (∀ x : SymX, x.dim = 2 →
        GIBNN.propagate GIBNN.init_cache x = .error "KeyError: layer0") := by
  refine ⟨by simp [GIBNN.init_cache], ?_, ?_⟩
  · intro oc h
    cases h with
    | init => simp [GIBNN.init_cache]
    | step c key ps ts zs key' c' _ _ => simp
  · intro x hdim
    simp [GIBNN.propagate, GIBNN.init_cache, GIBNN.S, if_pos hdim, dictGet]

/-- Witness for C10: the fresh cache and a concrete 2-dimensional input. -/
theorem GIBNN.fresh_cache_guard_unreachable_witness :
    GIBNN.propagate GIBNN.init_cache ⟨2, SymZ.z "a"⟩ = .error "KeyError: layer0" :=
  GIBNN.fresh_cache_guard_unreachable.2.2 ⟨2, SymZ.z "a"⟩ rfl

/-! ## Server schedulers (src/gi/server.py)

The scheduling state machines.  `clients` is the insertion-ordered client
dict; the logging fields (`log`, `optimized_clients`, `curr_iter`) do not
influence scheduling and are omitted.  A call to `__next__` is embedded as a
function from the state to the returned client list and the new state; the
`IndexError` of an out-of-range cursor is embedded as `none`. -/

/-- `SequentialServer` (src/gi/server.py, lines 108-129). -/
structure SequentialServer (γ : Type) where
  /-- The ordered client dict. -/
  clients : List (String × γ)
  /-- The round-robin cursor `self._idx`. -/
  idx : Nat
  /-- `self.communications`. -/
  communications : Nat
  /-- `self.max_iters`. -/
  max_iters : Nat

/-- `SequentialServer.__init__`: cursor 0, counter 0,
`max_iters = iters * len(self.clients)`. -/
def SequentialServer.init (clients : List (String × γ)) (iters : Nat) :
    SequentialServer γ :=
  ⟨clients, 0, 0, iters * clients.length⟩

/-- `current_client`: `self.clients[list(self.clients.keys())[self._idx]]`. -/
def SequentialServer.current_client (s : SequentialServer γ) : Option γ :=
  match (dictKeys s.clients).get? s.idx with
  | some k => dictGet s.clients k
  | none => none

/-- `SequentialServer.__next__`: fetch the current client, advance the cursor
modulo the client count, add 2 to the communication counter, return the
one-element client list. -/
def SequentialServer.next (s : SequentialServer γ) :
    Option (List γ) × SequentialServer γ :=
  match s.current_client with
  | some c =>
      (some [c],
       { s with idx := (s.idx + 1) % s.clients.length,
                communications := s.communications + 2 })
  | none => (none, s)

/-- `n` consecutive `__next__` calls, collecting the returned client lists. -/
def SequentialServer.run (s : SequentialServer γ) :
    Nat → List (Option (List γ)) × SequentialServer γ
  | 0 => ([], s)
  | n + 1 =>
      let step := s.next
      let rest := step.2.run n
      (step.1 :: rest.1, rest.2)

/-- `SynchronousServer` (src/gi/server.py, lines 92-105). -/
structure SynchronousServer (γ : Type) where
  /-- The ordered client dict. -/
  clients : List (String × γ)
  /-- `self.communications`. -/
  communications : Nat
  /-- `self.max_iters`. -/
  max_iters : Nat

/-- `SynchronousServer.__init__`: counter 0, `max_iters = iters`. -/
def SynchronousServer.init (clients : List (String × γ)) (iters : Nat) :
    SynchronousServer γ :=
  ⟨clients, 0, iters⟩

/-- `SynchronousServer.__next__`: add `2 * len(self.clients)` to the counter
and return all clients. -/
def SynchronousServer.next (s : SynchronousServer γ) :
    List γ × SynchronousServer γ :=
  (s.clients.map Prod.snd,
   { s with communications := s.communications + 2 * s.clients.length })

/-- `n` consecutive `__next__` calls (states only). -/
def SynchronousServer.iterate (s : SynchronousServer γ) : Nat → SynchronousServer γ
  | 0 => s
  | n + 1 => (s.next.2).iterate n

theorem dictGet_at_index {d : List (String × α)} :
    (dictKeys d).Nodup → ∀ {i : Nat} {k : String}, (dictKeys d).get? i = some k →
      dictGet d k = (d.map Prod.snd).get? i := by
  induction d with
  | nil => intro _ i k h; cases h
  | cons p rest ih =>
    intro hN i k h
    simp only [dictKeys, List.map_cons, List.nodup_cons] at hN
    obtain ⟨hnot, hNr⟩ := hN
    cases i with
    | zero =>
      simp only [dictKeys, List.map_cons, List.get?] at h
      cases h
      simp [dictGet]
    | succ i =>
      simp only [dictKeys, List.map_cons, List.get?] at h
      have hk : k ∈ List.map Prod.fst rest := List.get?_mem h
      have hp : ¬ p.1 = k := fun hh => hnot (hh ▸ hk)
      simp only [dictGet, if_neg hp, List.map_cons, List.get?]
      exact ih (by simpa [dictKeys] using hNr) (by simpa [dictKeys] using h)

/-- One `SequentialServer.__next__` call from a well-formed state: exactly one
client — the cursor's — is returned, the cursor advances modulo the client
count, the communication counter grows by 2. -/
theorem SequentialServer.next_spec (s : SequentialServer γ)
    (hN : (dictKeys s.clients).Nodup) (hidx : s.idx < s.clients.length) :
    ∃ c, (s.clients.map Prod.snd).get? s.idx = some c ∧
      s.next = (some [c],
        { s with idx := (s.idx + 1) % s.clients.length,
                 communications := s.communications + 2 }) := by
  have hlen : s.idx < (dictKeys s.clients).length := by
    simpa [dictKeys] using hidx
  obtain ⟨k, hk⟩ : ∃ k, (dictKeys s.clients).get? s.idx = some k :=
    ⟨_, List.get?_eq_get hlen⟩
  have hget := dictGet_at_index hN hk
  have hlen2 : s.idx < (s.clients.map Prod.snd).length := by simpa using hidx
  obtain ⟨c, hc⟩ : ∃ c, (s.clients.map Prod.snd).get? s.idx = some c :=
    ⟨_, List.get?_eq_get hlen2⟩
  refine ⟨c, hc, ?_⟩
  unfold SequentialServer.next SequentialServer.current_client
  rw [hk]
  simp only [hget, hc]

/-- Trace of `n` consecutive `SequentialServer.__next__` calls from a
well-formed state: the t-th call returns exactly the one client at cursor
position `(idx + t) mod k`, the counter grows by 2 per call, the cursor ends
at `(idx + n) mod k`. -/
theorem SequentialServer.run_spec {γ : Type} :
    ∀ (n : Nat) (s : SequentialServer γ), (dictKeys s.clients).Nodup →
      s.idx < s.clients.length →
      (s.run n).1 = (List.range n).map
          (fun t => ((s.clients.map Prod.snd).get? ((s.idx + t) % s.clients.length)).map
            (fun c => [c]))
      ∧ (s.run n).2.clients = s.clients
      ∧ (s.run n).2.communications = s.communications + 2 * n
      ∧ (s.run n).2.idx = (s.idx + n) % s.clients.length := by
  intro n
  induction n with
  | zero =>
    intro s hN hidx
    refine ⟨rfl, rfl, ?_, ?_⟩
    · simp [SequentialServer.run]
    · simp [SequentialServer.run, Nat.mod_eq_of_lt hidx]
  | succ n ih =>
    intro s hN hidx
    obtain ⟨c, hc, hnext⟩ := SequentialServer.next_spec s hN hidx
    have hlen : 0 < s.clients.length := by omega
    have hWF1 : ((s.idx + 1) % s.clients.length) < s.clients.length :=
      Nat.mod_lt _ hlen
    rw [show s.run (n + 1) = (s.next.1 :: ((s.next.2).run n).1, ((s.next.2).run n).2)
        from rfl, hnext]
    obtain ⟨h1, h2, h3, h4⟩ :=
      ih { s with idx := (s.idx + 1) % s.clients.length,
                  communications := s.communications + 2 } hN hWF1
    have hmod : ∀ t : Nat, ((s.idx + 1) % s.clients.length + t) % s.clients.length
        = (s.idx + (t + 1)) % s.clients.length := by
      intro t
      rw [Nat.mod_add_mod]
      congr 1
      omega
    refine ⟨?_, h2, by simp only [h3]; omega, by simp only [h4, hmod n]⟩
    have hhead : Option.map (fun c => [c])
        ((List.map Prod.snd s.clients).get? ((s.idx + 0) % s.clients.length)) = some [c] := by
      rw [Nat.add_zero, Nat.mod_eq_of_lt hidx, hc]
      rfl
    have htail : ((SequentialServer.mk s.clients ((s.idx + 1) % s.clients.length)
            (s.communications + 2) s.max_iters).run n).1 =
        List.map ((fun t => Option.map (fun c => [c])
          ((List.map Prod.snd s.clients).get? ((s.idx + t) % s.clients.length))) ∘ Nat.succ)
          (List.range n) := by
      rw [h1]
      apply List.map_congr_left
      intro t _
      show Option.map (fun c => [c]) ((List.map Prod.snd s.clients).get?
          (((s.idx + 1) % s.clients.length + t) % s.clients.length)) = _
      rw [hmod t]
      rfl
    rw [List.range_succ_eq_map, List.map_cons, List.map_map]
    exact List.cons_eq_cons.mpr ⟨hhead.symm, htail⟩

theorem countP_eq_range (k j : Nat) (hj : j < k) :
    (List.range k).countP (fun t => t = j) = 1 := by
  induction k with
  | zero => omega
  | succ k ih =>
    rw [List.range_succ, List.countP_append]
    by_cases h : j < k
    · rw [ih h]
      have hkj : ¬ (k = j) := by omega
      simp [List.countP_cons, hkj]
    · have hkj : j = k := by omega
      subst hkj
      have hz : (List.range j).countP (fun t => t = j) = 0 := by
        rw [List.countP_eq_zero]
        intro a ha
        simp only [List.mem_range] at ha
        simp only [decide_eq_true_eq]
        omega
      simp [hz, List.countP_cons]

theorem countP_mod_range (k j : Nat) (hj : j < k) :
    ∀ m, (List.range (m * k)).countP (fun t => t % k = j) = m := by
  intro m
  induction m with
  | zero => simp
  | succ m ih =>
    rw [Nat.succ_mul, List.range_add, List.countP_append, ih, List.countP_map]
    have hcongr : (List.range k).countP ((fun t => decide (t % k = j)) ∘ (fun x => m * k + x))
        = (List.range k).countP (fun t => t = j) := by
      apply List.countP_congr
      intro x hx
      simp only [List.mem_range] at hx
      simp only [Function.comp, decide_eq_true_eq]
      have hmm : (m * k + x) % k = x := by
        rw [Nat.add_comm, Nat.add_mul_mod_self_right, Nat.mod_eq_of_lt hx]
      rw [hmm]
    rw [hcongr, countP_eq_range k j hj]

/-- C6: for a `SequentialServer` over `k ≥ 1` clients built with `iters`
global iterations: `max_iters = iters * k`; each call returns exactly one
client and adds exactly 2 to the communication counter (`next_spec` gives the
per-call form; the trace conjunct shows every one of the `m * k` calls
returns the one client at index `t mod k`, so the calls run in client-index
order, wrapping modulo `k`); the counter after `m * k` calls is `2 * (m *
k)`; and each client index receives exactly `m` of the `m * k` turns. -/
theorem SequentialServer.round_robin_trace {γ : Type} (clients : List (String × γ))
    (iters m : Nat) (hk : 1 ≤ clients.length) (hN : (dictKeys clients).Nodup) :
    (SequentialServer.init clients iters).max_iters = iters * clients.length
    ∧ ((SequentialServer.init clients iters).run (m * clients.length)).1 =
        (List.range (m * clients.length)).map
          (fun t => ((clients.map Prod.snd).get? (t % clients.length)).map (fun c => [c]))
    ∧ ((SequentialServer.init clients iters).run (m * clients.length)).2.communications
        = 2 * (m * clients.length)
    ∧ (∀ j, j < clients.length →
        (List.range (m * clients.length)).countP (fun t => t % clients.length = j) = m) := by
  obtain ⟨h1, _h2, h3, _h4⟩ :=
    SequentialServer.run_spec (m * clients.length) (SequentialServer.init clients iters)
      hN (by simpa [SequentialServer.init] using hk)
  refine ⟨rfl, ?_, by simpa [SequentialServer.init] using h3, ?_⟩
  · rw [h1]
    apply List.map_congr_left
    intro t _
    simp [SequentialServer.init]
  · intro j hj
    exact countP_mod_range clients.length j hj m

/-- Witness for C6: two clients, `iters = 5`, `m = 2`; the four calls return
clients `0, 1, 0, 1`. -/
theorem SequentialServer.round_robin_trace_witness :
    ((SequentialServer.init [("a", 0), ("b", 1)] 5).run (2 * 2)).1 =
      (List.range (2 * 2)).map
        (fun t => (([("a", 0), ("b", 1)].map Prod.snd).get? (t % 2)).map (fun c => [c])) :=
  (SequentialServer.round_robin_trace [("a", 0), ("b", 1)] 5 2 (by decide) (by decide)).2.1

theorem SynchronousServer.iterate_spec {γ : Type} :
    ∀ (n : Nat) (s : SynchronousServer γ),
      (s.iterate n).communications = s.communications + 2 * s.clients.length * n
      ∧ (s.iterate n).clients = s.clients := by
  intro n
  induction n with
  | zero => intro s; exact ⟨by simp [SynchronousServer.iterate], rfl⟩
  | succ n ih =>
    intro s
    obtain ⟨h1, h2⟩ := ih s.next.2
    refine ⟨?_, h2⟩
    rw [show s.iterate (n + 1) = (s.next.2).iterate n from rfl, h1]
    simp only [SynchronousServer.next]
    ring

/-- C7: every `SynchronousServer.__next__` call returns the full client list
and adds exactly `2 * k` to the communication counter, so after `n` calls
from a fresh server the counter is `2 * k * n`. -/
theorem SynchronousServer.next_all_clients {γ : Type} (clients : List (String × γ))
    (iters : Nat) (hk : 1 ≤ clients.length) :
    (∀ s : SynchronousServer γ, s.next.1 = s.clients.map Prod.snd
       ∧ s.next.2.communications = s.communications + 2 * s.clients.length)
    ∧ (∀ n, ((SynchronousServer.init clients iters).iterate n).communications
        = 2 * clients.length * n) := by
  refine ⟨fun s => ⟨rfl, rfl⟩, fun n => ?_⟩
  obtain ⟨h1, _⟩ := SynchronousServer.iterate_spec n (SynchronousServer.init clients iters)
  simpa [SynchronousServer.init] using h1

/-- Witness for C7: two clients, three calls, counter 12. -/
theorem SynchronousServer.next_all_clients_witness :
    ((SynchronousServer.init [("a", 0), ("b", 1)] 5).iterate 3).communications
      = 2 * 2 * 3 :=
  (SynchronousServer.next_all_clients [("a", 0), ("b", 1)] 5 (by decide)).2 3

/-! ## Minibatch index arithmetic (src/experiments/pvi_classification.py,
lines 164-167; src/experiments/mfvi_regression.py, lines 155-158) -/

/-- `inds = (B.range(batch_size) + batch_size * client_iter) % client_data_size`:
the index vector `0..b-1`, shifted by `b * i` (vector plus scalar), then taken
modulo the partition size (elementwise). -/
def minibatch_inds (batch_size client_iter client_data_size : Nat) : List Nat :=
  ((List.range batch_size).map (fun j => j + batch_size * client_iter)).map
    (fun v => v % client_data_size)

/-- C5: the minibatch index window of local iteration `i` is
`((0..b-1) + b*i) mod P`; in particular for `P = 7`, `b = 3` the iterations
0, 1, 2, 3 produce the windows `[0,1,2]`, `[3,4,5]`, `[6,0,1]`, `[2,3,4]` —
stateless and reproducible from the iteration index alone. -/
theorem minibatch_inds_spec :
    (∀ b i P, minibatch_inds b i P = (List.range b).map (fun j => (j + b * i) % P))
    ∧ minibatch_inds 3 0 7 = [0, 1, 2]
    ∧ minibatch_inds 3 1 7 = [3, 4, 5]
    ∧ minibatch_inds 3 2 7 = [6, 0, 1]
    ∧ minibatch_inds 3 3 7 = [2, 3, 4] := by
  refine ⟨fun b i P => ?_, by decide, by decide, by decide, by decide⟩
  rw [minibatch_inds, List.map_map]
  rfl

/-! ## `estimate_local_vfe` (src/experiments/utils/optimization.py, lines 127-163)

The model is the capability the estimator calls through (spec §1, §6):
`sample_posterior` threads the random-state token and overwrites the model's
posterior cache (`self._cache`, passed here as explicit state), and
`propagate` / `get_total_kl` / `compute_ell` / `compute_error` read that
state.  Per-sample vectors (shape `[S]`) are lists of rationals. -/

/-- `x.mean()` over the sample axis. -/
def listMean (l : List ℚ) : ℚ := l.sum / l.length

/-- The model interface used by `estimate_local_vfe` (the `gi.GIBNN` branch;
fallible operations return `Except` like the Python methods can raise). -/
structure BNNModel (K Ps Ts Zs Cache X Y O : Type) where
  /-- `model.sample_posterior(key, ps, ts, zs, S=S, ...)`: returns the new
  random-state token and overwrites the model's cache. -/
  sample_posterior : K → Ps → Ts → Zs → Nat → Cache → Except String (K × Cache)
  /-- `model.propagate(x)`, reading the cache. -/
  propagate : Cache → X → Except String O
  /-- `model.get_total_kl()`: the cached per-sample KL total, shape `[S]`. -/
  get_total_kl : Cache → List ℚ
  /-- `model.compute_ell(out, y)`: per-sample expected log-likelihood `[S]`. -/
  compute_ell : O → Y → List ℚ
  /-- `model.compute_error(out, y)`. -/
  compute_error : O → Y → ℚ

/-- `estimate_local_vfe`: sample a fresh posterior (updating the model's
cache state), propagate the minibatch `x`, read the cached KL total, compute
the expected log-likelihood and error, form the per-datapoint ELBO
`elbo = exp_ll - kl / N` per sample (the commented-out variant rescaling by
the batch size is NOT used), and return
`(key, elbo.mean(), exp_ll.mean(), kl.mean(), error)`; the final cache is the
model state after the call. -/
def estimate_local_vfe (m : BNNModel K Ps Ts Zs Cache X Y O)
    (key : K) (x : X) (y : Y) (ps : Ps) (ts : Ts) (zs : Zs) (S : Nat) (N : ℚ)
    (cache : Cache) : Except String ((K × ℚ × ℚ × ℚ × ℚ) × Cache) :=
  match m.sample_posterior key ps ts zs S cache with
  | .error e => .error e
  | .ok kc =>
      match m.propagate kc.2 x with
      | .error e => .error e
      | .ok out =>
          let kl := m.get_total_kl kc.2
          let exp_ll := m.compute_ell out y
          let error := m.compute_error out y
          let elbo := List.zipWith (fun l k0 => l - k0 / N) exp_ll kl
          .ok ((kc.1, listMean elbo, listMean exp_ll, listMean kl, error), kc.2)

theorem zipWith_elbo_sum (N : ℚ) :
    ∀ (a b : List ℚ), a.length = b.length →
      (List.zipWith (fun l k0 => l - k0 / N) a b).sum = a.sum - b.sum / N := by
  intro a
  induction a with
  | nil =>
    intro b h
    cases b with
    | nil => simp
    | cons y ys => cases h
  | cons v vs ih =>
    intro b h
    cases b with
    | nil => cases h
    | cons y ys =>
      simp only [List.zipWith_cons_cons, List.sum_cons]
      rw [ih ys (by simpa using h)]
      ring

theorem listMean_elbo (N : ℚ) (a b : List ℚ) (h : a.length = b.length) :
    listMean (List.zipWith (fun l k0 => l - k0 / N) a b) =
      listMean a - listMean b / N := by
  unfold listMean
  rw [zipWith_elbo_sum N a b h, List.length_zipWith, h, Nat.min_self, ← h]
  rw [sub_div, div_div, div_div, mul_comm]

/-- C4: `estimate_local_vfe` returns as its ELBO value the expected
log-likelihood of the minibatch under the freshly sampled posterior minus the
cached total KL divided by the local dataset size `N` — formed per sample and
then averaged over the `S` samples — with no rescaling of either term by the
minibatch size (the result does not depend on `len(x)` at all). -/
theorem estimate_local_vfe_elbo_form
    {K Ps Ts Zs Cache X Y O : Type} (m : BNNModel K Ps Ts Zs Cache X Y O)
    (key : K) (x : X) (y : Y) (ps : Ps) (ts : Ts) (zs : Zs) (S : Nat) (N : ℚ)
    (cache : Cache) (key1 : K) (cache1 : Cache) (out : O)
    (hsp : m.sample_posterior key ps ts zs S cache = .ok (key1, cache1))
    (hout : m.propagate cache1 x = .ok out)
    (hN : 0 < N)
    (hlen : (m.compute_ell out y).length = S)
    (hlenk : (m.get_total_kl cache1).length = S) :
    estimate_local_vfe m key x y ps ts zs S N cache =
      .ok ((key1,
            listMean (m.compute_ell out y) - listMean (m.get_total_kl cache1) / N,
            listMean (m.compute_ell out y),
            listMean (m.get_total_kl cache1),
            m.compute_error out y), cache1) := by
  unfold estimate_local_vfe
  rw [hsp]
  simp only [hout]
  rw [listMean_elbo N _ _ (hlen.trans hlenk.symm)]

/-- The `GIBNN` model as a `BNNModel` instance: `sample_posterior` and
`propagate` are the symbolic embeddings above; the likelihood head
(`get_total_kl` / `compute_ell` / `compute_error` live in the BNN base class,
outside the composition engine) is passed in as parameters. -/
def gibnnModel (ell : Option SymZ → List ℚ) (err : Option SymZ → ℚ)
    (kl : GibnnCache → List ℚ) :
    BNNModel Nat (List (String × SymQ)) (List (String × List (String × String)))
      (List (String × SymZ)) GibnnCache SymX Unit (Option SymZ) where
  sample_posterior := fun key ps ts zs _S cache =>
    GIBNN.sample_posterior key ps ts zs cache
  propagate := fun cache x => GIBNN.propagate (some cache) x
  get_total_kl := kl
  compute_ell := fun out _ => ell out
  compute_error := fun out _ => err out

/-- Witness for C4: the `GIBNN` instance on the two-client example with
`exp_ll = [2]`, `kl = [3]`, `N = 4`; the ELBO is `2 - 3/4`. -/
theorem estimate_local_vfe_elbo_form_witness :
    estimate_local_vfe (gibnnModel (fun _ => [2]) (fun _ => 7) (fun _ => [3]))
        0 ⟨3, SymZ.z "x"⟩ () [("layer0", SymQ.prior "p0")]
        [("layer0", [("a", "ta"), ("b", "tb")])]
        [("a", SymZ.z "a"), ("b", SymZ.z "b")] 1 4 [] =
      .ok ((1, listMean [2] - listMean [3] / 4, listMean [2], listMean [3], 7),
           exampleCache) :=
  estimate_local_vfe_elbo_form
    (gibnnModel (fun _ => [2]) (fun _ => 7) (fun _ => [3]))
    0 ⟨3, SymZ.z "x"⟩ () [("layer0", SymQ.prior "p0")]
    [("layer0", [("a", "ta"), ("b", "tb")])]
    [("a", SymZ.z "a"), ("b", SymZ.z "b")] 1 4 [] 1 exampleCache
    (some (SymZ.mm (SymZ.z "x") 0)) rfl rfl (by norm_num) rfl rfl

/-- C9 counterexample: `estimate_local_vfe` is NOT side-effect-free apart
from the returned random-state token — it also overwrites the model's
posterior cache.  On the concrete `GIBNN` instance, starting from the empty
cache, the call returns normally but the model's cache state afterwards
(`exampleCache`) differs from the cache state before (`[]`). -/
theorem estimate_local_vfe_overwrites_cache :
    (estimate_local_vfe (gibnnModel (fun _ => [0]) (fun _ => 0) (fun _ => [0]))
        0 ⟨3, SymZ.z "x"⟩ () [("layer0", SymQ.prior "p0")]
        [("layer0", [("a", "ta"), ("b", "tb")])]
        [("a", SymZ.z "a"), ("b", SymZ.z "b")] 1 1 []).map (fun r => r.2) =
      .ok exampleCache
    ∧ exampleCache ≠ ([] : GibnnCache) :=
  ⟨rfl, by decide⟩

/-- C9 (amended): `estimate_local_vfe` is deterministic — equal inputs
(random-state token, model, cache state, minibatch, priors, factor view,
inducing view, `S`, `N`) give identical results — and the state threaded out
is the returned random-state token TOGETHER WITH the model's posterior cache,
which is exactly the pair produced by the single internal `sample_posterior`
call (no further state is touched after sampling). -/
theorem estimate_local_vfe_deterministic_frame
    {K Ps Ts Zs Cache X Y O : Type} (m : BNNModel K Ps Ts Zs Cache X Y O)
    (key key2 : K) (x x2 : X) (y y2 : Y) (ps ps2 : Ps) (ts ts2 : Ts)
    (zs zs2 : Zs) (S S2 : Nat) (N N2 : ℚ) (cache cache2 : Cache)
    (hk : key = key2) (hx : x = x2) (hy : y = y2) (hps : ps = ps2)
    (hts : ts = ts2) (hzs : zs = zs2) (hS : S = S2) (hN : N = N2)
    (hc : cache = cache2) :
    estimate_local_vfe m key x y ps ts zs S N cache
      = estimate_local_vfe m key2 x2 y2 ps2 ts2 zs2 S2 N2 cache2
    ∧ (∀ r, estimate_local_vfe m key x y ps ts zs S N cache = .ok r →
        m.sample_posterior key ps ts zs S cache = .ok (r.1.1, r.2)) := by
  subst hk hx hy hps hts hzs hS hN hc
  refine ⟨rfl, ?_⟩
  intro r hr
  unfold estimate_local_vfe at hr
  cases hsp : m.sample_posterior key ps ts zs S cache with
  | error e =>
    simp only [hsp] at hr
    exact Except.noConfusion hr
  | ok kc =>
    simp only [hsp] at hr
    cases hout : m.propagate kc.2 x with
    | error e =>
      simp only [hout] at hr
      exact Except.noConfusion hr
    | ok out =>
      simp only [hout, Except.ok.injEq] at hr
      subst hr
      simp only [hsp, Prod.mk.eta]

/-- Witness for C9's amended theorem: applied on the `GIBNN` instance at the
two-client example, the frame clause recovers the `sample_posterior` result. -/
theorem estimate_local_vfe_deterministic_frame_witness :
    GIBNN.sample_posterior 0 [("layer0", SymQ.prior "p0")]
        [("layer0", [("a", "ta"), ("b", "tb")])]
        [("a", SymZ.z "a"), ("b", SymZ.z "b")] [] = .ok (1, exampleCache) :=
  (estimate_local_vfe_deterministic_frame
      (gibnnModel (fun _ => [0]) (fun _ => 0) (fun _ => [0]))
      0 0 ⟨3, SymZ.z "x"⟩ ⟨3, SymZ.z "x"⟩ () ()
      [("layer0", SymQ.prior "p0")] [("layer0", SymQ.prior "p0")]
      [("layer0", [("a", "ta"), ("b", "tb")])] [("layer0", [("a", "ta"), ("b", "tb")])]
      [("a", SymZ.z "a"), ("b", SymZ.z "b")] [("a", SymZ.z "a"), ("b", SymZ.z "b")]
      1 1 1 1 [] [] rfl rfl rfl rfl rfl rfl rfl rfl rfl).2
    ((1, listMean (List.zipWith (fun l k0 => l - k0 / 1) [0] [0]),
      listMean [0], listMean [0], 0), exampleCache) rfl

/-! ## The freezing protocol (src/experiments/utils/optimization.py, lines 75-124)

Factors and inducing tensors are Python objects.  `copy(t)` creates a NEW
factor object sharing the same parameter data (a shallow copy), and
`z.detach().clone()` creates a new tensor with the same value and the
gradient history severed.  Object identity is embedded by a copy-depth tag:
`pycopy` / `detachClone` bump the tag, so a copy is never equal, as an
object, to the value it was copied from; the payload (`data`) carries the
numeric value and the attached-to-the-graph flag, and a shallow copy shares
the payload unchanged. -/

/-- The numeric payload of a tensor/factor object: its value and whether it
is attached to the autodiff graph. -/
structure TensorData (V : Type) where
  /-- The numeric value. -/
  val : V
  /-- Whether the object carries gradient history. -/
  attached : Bool
deriving DecidableEq, Repr

/-- A Python object reference: payload plus a copy-depth tag distinguishing
an object from its (iterated) copies. -/
structure PyRef (V : Type) where
  /-- Copy-depth tag: object identity up to what the claims need (a copy is
  a different object from its source). -/
  tag : Nat
  /-- The shared payload. -/
  data : TensorData V
deriving DecidableEq, Repr

/-- `copy(t)` — shallow copy: new object, same payload (parameter tensors
are shared, so value and attachment are those of the original). -/
def pycopy (t : PyRef V) : PyRef V := ⟨t.tag + 1, t.data⟩

/-- `z.detach().clone()`: new tensor object, same value, detached. -/
def detachClone (t : PyRef V) : PyRef V := ⟨t.tag + 1, ⟨t.data.val, false⟩⟩

/-- A client as the freezing protocol sees it: its name, whether it is a
`GI_Client`, its live inducing tensor `z` and its live factor dict `t`
(layer name ↦ factor object). -/
structure Client (V : Type) where
  /-- `client.name`. -/
  name : String
  /-- `type(client) == GI_Client` / `isinstance(client, GI_Client)`. -/
  isGI : Bool
  /-- The live inducing-input tensor `client.z`. -/
  z : PyRef V
  /-- The live factor dict `client.t`. -/
  t : List (String × PyRef V)
deriving DecidableEq, Repr

/-- Factor views: layer name ↦ client name ↦ factor object. -/
abbrev TsT (V : Type) := List (String × List (String × PyRef V))

/-- Inducing views: client name ↦ tensor object. -/
abbrev ZsT (V : Type) := List (String × PyRef V)

/-- The inner loop of `collect_vp` over `client.t.items()`:
`tmp_ts[layer_name][client_name] = copy(client_layer_t)` (creating the layer
dict when absent). -/
def collectClientT (cname : String) : TsT V → List (String × PyRef V) → TsT V
  | ts, [] => ts
  | ts, (lname, f) :: rest =>
      collectClientT cname (dictInsert2 ts lname cname (pycopy f)) rest

/-- The loop of `collect_vp` over `clients.items()`: detach-clone the
inducing tensor of `GI_Client`s into `tmp_zs`, shallow-copy each layer factor
into `tmp_ts`. -/
def collect_vp_aux : TsT V → ZsT V → List (String × Client V) → TsT V × ZsT V
  | ts, zs, [] => (ts, zs)
  | ts, zs, (cname, cl) :: rest =>
      let zs2 := if cl.isGI then dictInsert zs cname (detachClone cl.z) else zs
      let ts2 := collectClientT cname ts cl.t
      collect_vp_aux ts2 zs2 rest

/-- `collect_vp` (lines 75-97): fully detached snapshot of every client's
variational parameters, built from scratch. -/
def collect_vp (clients : List (String × Client V)) : TsT V × ZsT V :=
  collect_vp_aux [] [] clients

/-- The inner loop of `collect_frozen_vp` over one frozen layer's items: the
active client's entry is replaced by its LIVE factor `curr_client.t[layer_name]`
(a `KeyError` when the live dict lacks the layer); every other entry is
shallow-copied. -/
def frozenLayer (curr : Client V) (lname : String) :
    TsT V → List (String × PyRef V) → Except String (TsT V)
  | ts, [] => .ok ts
  | ts, (cname, f) :: rest =>
      if cname = curr.name then
        match dictGet curr.t lname with
        | some livef => frozenLayer curr lname (dictInsert2 ts lname curr.name livef) rest
        | none => .error ("KeyError: " ++ lname)
      else
        frozenLayer curr lname (dictInsert2 ts lname cname (pycopy f)) rest

/-- The outer loop of `collect_frozen_vp` over `frozen_ts.items()` (ensure
the layer dict exists, then run the per-client loop). -/
def frozenLayers (curr : Client V) : TsT V → TsT V → Except String (TsT V)
  | ts, [] => .ok ts
  | ts, (lname, layer_t) :: rest =>
      let ts2 := if (dictGet ts lname).isSome then ts else dictInsert ts lname []
      match frozenLayer curr lname ts2 layer_t with
      | .ok ts3 => frozenLayers curr ts3 rest
      | .error e => .error e

/-- The `tmp_zs` loop of `collect_frozen_vp`: detach-clone every frozen
tensor except the active client's. -/
def frozenZsLoop (curr : Client V) : ZsT V → ZsT V → ZsT V
  | zs, [] => zs
  | zs, (cname, zt) :: rest =>
      if cname = curr.name then frozenZsLoop curr zs rest
      else frozenZsLoop curr (dictInsert zs cname (detachClone zt)) rest

/-- The `tmp_zs` of `collect_frozen_vp`: starts from
`(curr_client.name ↦ curr_client.z)` — the LIVE tensor — for `GI_Client`s,
empty otherwise. -/
def frozenZs (curr : Client V) (frozen_zs : ZsT V) : ZsT V :=
  if curr.isGI then frozenZsLoop curr [(curr.name, curr.z)] frozen_zs else []

/-- `collect_frozen_vp` (lines 100-124): frozen snapshot with the active
client's live factor and inducing set substituted in. -/
def collect_frozen_vp (frozen_ts : TsT V) (frozen_zs : ZsT V) (curr : Client V) :
    Except String (TsT V × ZsT V) :=
  match frozenLayers curr [] frozen_ts with
  | .ok ts => .ok (ts, frozenZs curr frozen_zs)
  | .error e => .error e

theorem collectClientT_get2 {V : Type} (cname : String) :
    ∀ (tl : List (String × PyRef V)) (ts : TsT V) (l n : String),
      (dictKeys tl).Nodup →
      dictGet2 (collectClientT cname ts tl) l n =
        if n = cname then
          (dictGet tl l).elim (dictGet2 ts l n) (fun f => some (pycopy f))
        else dictGet2 ts l n := by
  intro tl
  induction tl with
  | nil =>
    intro ts l n _
    by_cases hn : n = cname <;> simp [collectClientT, dictGet, hn]
  | cons e rest ih =>
    intro ts l n hN
    simp only [dictKeys, List.map_cons, List.nodup_cons] at hN
    obtain ⟨hnotin, hNr⟩ := hN
    rw [show collectClientT cname ts (e :: rest)
        = collectClientT cname (dictInsert2 ts e.1 cname (pycopy e.2)) rest from rfl]
    rw [ih (dictInsert2 ts e.1 cname (pycopy e.2)) l n (by simpa [dictKeys] using hNr)]
    by_cases hn : n = cname
    · simp only [if_pos hn]
      by_cases hl : e.1 = l
      · have hrest : dictGet rest l = none := by
          rw [dictGet_eq_none_iff]
          exact fun hc => hnotin (hl ▸ hc)
        rw [hrest]
        simp only [Option.elim]
        rw [dictGet2_insert2, if_pos ⟨hl.symm, hn⟩]
        simp [dictGet, hl]
      · simp only [dictGet, if_neg hl]
        cases hrest : dictGet rest l with
        | some f => simp [Option.elim]
        | none =>
          simp only [Option.elim]
          rw [dictGet2_insert2,
            if_neg (fun hc => hl (hc.1.symm))]
    · simp only [if_neg hn]
      rw [dictGet2_insert2, if_neg (fun hc => hn hc.2)]

theorem collect_vp_aux_ts_get2 {V : Type} :
    ∀ (clients : List (String × Client V)) (ts : TsT V) (zs : ZsT V) (l n : String),
      (dictKeys clients).Nodup →
      (∀ p ∈ clients, (dictKeys p.2.t).Nodup) →
      dictGet2 (collect_vp_aux ts zs clients).1 l n =
        (dictGet clients n).elim (dictGet2 ts l n)
          (fun cl => (dictGet cl.t l).elim (dictGet2 ts l n) (fun f => some (pycopy f))) := by
  intro clients
  induction clients with
  | nil => intro ts zs l n _ _; simp [collect_vp_aux, dictGet, Option.elim]
  | cons e rest ih =>
    intro ts zs l n hN hT
    simp only [dictKeys, List.map_cons, List.nodup_cons] at hN
    obtain ⟨hnotin, hNr⟩ := hN
    rw [show (collect_vp_aux ts zs (e :: rest)).1
        = (collect_vp_aux (collectClientT e.1 ts e.2.t)
            (if e.2.isGI then dictInsert zs e.1 (detachClone e.2.z) else zs) rest).1 from rfl]
    rw [ih _ _ l n (by simpa [dictKeys] using hNr) (fun p hp => hT p (List.mem_cons_of_mem _ hp))]
    have hct := collectClientT_get2 e.1 e.2.t ts l n (hT e (List.mem_cons_self _ _))
    by_cases hn : e.1 = n
    · have hrest : dictGet rest n = none := by
        rw [dictGet_eq_none_iff]
        exact fun hc => hnotin (hn ▸ hc)
      rw [hrest]
      simp only [Option.elim, dictGet, if_pos hn]
      rw [hct, if_pos hn.symm]
      cases dictGet e.2.t l with
      | some f => simp [Option.elim]
      | none => simp [Option.elim]
    · simp only [dictGet, if_neg hn]
      have hts : dictGet2 (collectClientT e.1 ts e.2.t) l n = dictGet2 ts l n := by
        rw [hct, if_neg (fun hc => hn hc.symm)]
      cases hr : dictGet rest n with
      | none => simp [Option.elim, hts]
      | some cl =>
        simp only [Option.elim]
        cases dictGet cl.t l with
        | none => simp [Option.elim, hts]
        | some f => simp [Option.elim]

theorem collect_vp_aux_zs_get {V : Type} :
    ∀ (clients : List (String × Client V)) (ts : TsT V) (zs : ZsT V) (n : String),
      (dictKeys clients).Nodup →
      dictGet (collect_vp_aux ts zs clients).2 n =
        (dictGet clients n).elim (dictGet zs n)
          (fun cl => if cl.isGI then some (detachClone cl.z) else dictGet zs n) := by
  intro clients
  induction clients with
  | nil => intro ts zs n _; simp [collect_vp_aux, dictGet, Option.elim]
  | cons e rest ih =>
    intro ts zs n hN
    simp only [dictKeys, List.map_cons, List.nodup_cons] at hN
    obtain ⟨hnotin, hNr⟩ := hN
    rw [show (collect_vp_aux ts zs (e :: rest)).2
        = (collect_vp_aux (collectClientT e.1 ts e.2.t)
            (if e.2.isGI then dictInsert zs e.1 (detachClone e.2.z) else zs) rest).2 from rfl]
    rw [ih _ _ n (by simpa [dictKeys] using hNr)]
    by_cases hn : e.1 = n
    · have hrest : dictGet rest n = none := by
        rw [dictGet_eq_none_iff]
        exact fun hc => hnotin (hn ▸ hc)
      rw [hrest]
      simp only [Option.elim, dictGet, if_pos hn]
      by_cases hg : e.2.isGI
      · simp only [if_pos hg]
        rw [dictGet_insert, if_pos hn.symm]
      · simp only [if_neg hg]
    · simp only [dictGet, if_neg hn]
      have hzs : dictGet (if e.2.isGI then dictInsert zs e.1 (detachClone e.2.z) else zs) n
          = dictGet zs n := by
        by_cases hg : e.2.isGI
        · simp only [if_pos hg]
          rw [dictGet_insert, if_neg (fun hc => hn hc.symm)]
        · simp only [if_neg hg]
      cases hr : dictGet rest n with
      | none => simp [Option.elim, hzs]
      | some cl =>
        simp only [Option.elim]
        by_cases hg : cl.isGI <;> simp [hg, hzs]

/-- Well-formedness of a factor view as a Python dict of dicts: unique layer
keys and unique client keys per layer. -/
def TsWF (ts : TsT V) : Prop :=
  (dictKeys ts).Nodup ∧ ∀ p ∈ ts, (dictKeys p.2).Nodup

theorem mem_dictInsert {d : List (String × α)} {k : String} {v : α} {q : String × α} :
    q ∈ dictInsert d k v → q = (k, v) ∨ q ∈ d := by
  induction d with
  | nil => intro h; simp [dictInsert] at h; exact Or.inl h
  | cons p rest ih =>
    intro h
    by_cases hp : p.1 = k
    · simp only [dictInsert, if_pos hp] at h
      rcases List.mem_cons.mp h with h1 | h1
      · exact Or.inl h1
      · exact Or.inr (List.mem_cons_of_mem _ h1)
    · simp only [dictInsert, if_neg hp] at h
      rcases List.mem_cons.mp h with h1 | h1
      · exact Or.inr (h1 ▸ List.mem_cons_self _ _)
      · rcases ih h1 with h2 | h2
        · exact Or.inl h2
        · exact Or.inr (List.mem_cons_of_mem _ h2)

theorem mem_of_dictGet {d : List (String × α)} {k : String} {v : α} :
    dictGet d k = some v → (k, v) ∈ d := by
  induction d with
  | nil => intro h; cases h
  | cons p rest ih =>
    intro h
    by_cases hp : p.1 = k
    · simp only [dictGet, if_pos hp, Option.some.injEq] at h
      have : (k, v) = p := Prod.ext hp.symm h.symm
      exact this ▸ List.mem_cons_self _ _
    · simp only [dictGet, if_neg hp] at h
      exact List.mem_cons_of_mem _ (ih h)

theorem TsWF_insert2 {V : Type} {ts : TsT V} (h : TsWF ts) (l n : String) (v : PyRef V) :
    TsWF (dictInsert2 ts l n v) := by
  constructor
  · exact dictKeys_nodup_insert h.1 _ _
  · intro p hp
    rcases mem_dictInsert hp with h1 | h1
    · rw [h1]
      have hlay : (dictKeys ((dictGet ts l).getD [])).Nodup := by
        cases hget : dictGet ts l with
        | none => simp [dictKeys]
        | some lay => exact h.2 (l, lay) (mem_of_dictGet hget)
      exact dictKeys_nodup_insert hlay _ _
    · exact h.2 p h1

theorem TsWF_collectClientT {V : Type} (cname : String) :
    ∀ (tl : List (String × PyRef V)) (ts : TsT V), TsWF ts →
      TsWF (collectClientT cname ts tl) := by
  intro tl
  induction tl with
  | nil => intro ts h; exact h
  | cons e rest ih =>
    intro ts h
    exact ih _ (TsWF_insert2 h _ _ _)

theorem TsWF_collect_vp_aux {V : Type} :
    ∀ (clients : List (String × Client V)) (ts : TsT V) (zs : ZsT V), TsWF ts →
      TsWF (collect_vp_aux ts zs clients).1 := by
  intro clients
  induction clients with
  | nil => intro ts zs h; exact h
  | cons e rest ih =>
    intro ts zs h
    exact ih _ _ (TsWF_collectClientT e.1 e.2.t ts h)

theorem zsKeys_collect_vp_aux {V : Type} :
    ∀ (clients : List (String × Client V)) (ts : TsT V) (zs : ZsT V),
      (dictKeys zs).Nodup → (dictKeys (collect_vp_aux ts zs clients).2).Nodup := by
  intro clients
  induction clients with
  | nil => intro ts zs h; exact h
  | cons e rest ih =>
    intro ts zs h
    refine ih _ _ ?_
    by_cases hg : e.2.isGI
    · simp only [if_pos hg]
      exact dictKeys_nodup_insert h _ _
    · simpa only [if_neg hg] using h
theorem frozenLayer_get2 {V : Type} (curr : Client V) (lname : String) :
    ∀ (lt : List (String × PyRef V)) (ts ts2 : TsT V),
      (dictKeys lt).Nodup →
      frozenLayer curr lname ts lt = .ok ts2 →
      ∀ l n, dictGet2 ts2 l n =
        if l = lname then
          (dictGet lt n).elim (dictGet2 ts l n)
            (fun f => if n = curr.name then dictGet curr.t lname else some (pycopy f))
        else dictGet2 ts l n := by
  intro lt
  induction lt with
  | nil =>
    intro ts ts2 _ h l n
    have hts : ts = ts2 := by simpa [frozenLayer] using h
    subst hts
    by_cases hl : l = lname <;> simp [dictGet, Option.elim, hl]
  | cons e rest ih =>
    intro ts ts2 hN h l n
    simp only [dictKeys, List.map_cons, List.nodup_cons] at hN
    obtain ⟨hnotin, hNr⟩ := hN
    have hNr2 : (dictKeys rest).Nodup := by simpa [dictKeys] using hNr
    have hunf : frozenLayer curr lname ts (e :: rest)
        = if e.1 = curr.name then
            (match dictGet curr.t lname with
             | some livef =>
                 frozenLayer curr lname (dictInsert2 ts lname curr.name livef) rest
             | none => Except.error ("KeyError: " ++ lname))
          else frozenLayer curr lname (dictInsert2 ts lname e.1 (pycopy e.2)) rest := rfl
    by_cases hc : e.1 = curr.name
    · cases hlive : dictGet curr.t lname with
      | none =>
        rw [hunf, if_pos hc, hlive] at h
        have h2 : (Except.error ("KeyError: " ++ lname) : Except String (TsT V))
            = Except.ok ts2 := h
        exact Except.noConfusion h2
      | some livef =>
        have h' : frozenLayer curr lname (dictInsert2 ts lname curr.name livef) rest
            = Except.ok ts2 := by
          rw [hunf, if_pos hc, hlive] at h
          exact h
        rw [ih _ ts2 hNr2 h' l n]
        by_cases hl : l = lname
        · simp only [if_pos hl]
          by_cases hn : n = curr.name
          · have hE : e.1 = n := hc.trans hn.symm
            have hrest : dictGet rest n = none := by
              rw [dictGet_eq_none_iff]
              intro hm
              apply hnotin
              rw [hE]
              simpa [dictKeys] using hm
            rw [hrest]
            simp only [Option.elim, dictGet, if_pos hE]
            rw [dictGet2_insert2, if_pos ⟨hl, hn⟩, if_pos hn]
          · have hne : ¬ e.1 = n := fun hh => hn (hh.symm.trans hc)
            simp only [dictGet, if_neg hne]
            cases hrest : dictGet rest n with
            | some f => simp [Option.elim, hn]
            | none =>
              simp only [Option.elim]
              rw [dictGet2_insert2, if_neg (fun hp => hn hp.2)]
        · simp only [if_neg hl]
          rw [dictGet2_insert2, if_neg (fun hp => hl hp.1)]
    · have h' : frozenLayer curr lname (dictInsert2 ts lname e.1 (pycopy e.2)) rest
          = Except.ok ts2 := by
        rw [hunf, if_neg hc] at h
        exact h
      rw [ih _ ts2 hNr2 h' l n]
      by_cases hl : l = lname
      · simp only [if_pos hl]
        by_cases hn : e.1 = n
        · have hnc : ¬ n = curr.name := fun hh => hc (hn.trans hh)
          have hrest : dictGet rest n = none := by
            rw [dictGet_eq_none_iff]
            intro hm
            apply hnotin
            rw [hn]
            simpa [dictKeys] using hm
          rw [hrest]
          simp only [Option.elim, dictGet, if_pos hn]
          rw [dictGet2_insert2, if_pos ⟨hl, hn.symm⟩]
          simp only [Option.elim, if_neg hnc]
        · simp only [dictGet, if_neg hn]
          cases hrest : dictGet rest n with
          | some f => simp [Option.elim]
          | none =>
            simp only [Option.elim]
            rw [dictGet2_insert2, if_neg (fun hp => hn hp.2.symm)]
      · simp only [if_neg hl]
        rw [dictGet2_insert2, if_neg (fun hp => hl hp.1)]

theorem frozenLayer_ok {V : Type} (curr : Client V) (lname : String) :
    ∀ (lt : List (String × PyRef V)) (ts : TsT V),
      (∀ f, (curr.name, f) ∈ lt → (dictGet curr.t lname).isSome) →
      ∃ ts2, frozenLayer curr lname ts lt = .ok ts2 := by
  intro lt
  induction lt with
  | nil => intro ts _; exact ⟨ts, rfl⟩
  | cons e rest ih =>
    intro ts hcond
    have hunf : frozenLayer curr lname ts (e :: rest)
        = if e.1 = curr.name then
            (match dictGet curr.t lname with
             | some livef =>
                 frozenLayer curr lname (dictInsert2 ts lname curr.name livef) rest
             | none => Except.error ("KeyError: " ++ lname))
          else frozenLayer curr lname (dictInsert2 ts lname e.1 (pycopy e.2)) rest := rfl
    by_cases hc : e.1 = curr.name
    · have hmem : (curr.name, e.2) ∈ e :: rest := by
        have : (curr.name, e.2) = e := Prod.ext hc.symm rfl
        exact this ▸ List.mem_cons_self _ _
      obtain ⟨livef, hlive⟩ := Option.isSome_iff_exists.mp (hcond e.2 hmem)
      obtain ⟨ts2, h2⟩ := ih (dictInsert2 ts lname curr.name livef)
        (fun f hf => hcond f (List.mem_cons_of_mem _ hf))
      refine ⟨ts2, ?_⟩
      rw [hunf, if_pos hc, hlive]
      exact h2
    · obtain ⟨ts2, h2⟩ := ih (dictInsert2 ts lname e.1 (pycopy e.2))
        (fun f hf => hcond f (List.mem_cons_of_mem _ hf))
      refine ⟨ts2, ?_⟩
      rw [hunf, if_neg hc]
      exact h2

theorem dictGet2_ensure {V : Type} (ts : TsT V) (lname l n : String) :
    dictGet2 (if (dictGet ts lname).isSome then ts else dictInsert ts lname []) l n
      = dictGet2 ts l n := by
  by_cases hs : (dictGet ts lname).isSome
  · simp [hs]
  · simp only [if_neg hs]
    unfold dictGet2
    rw [dictGet_insert]
    by_cases hl : l = lname
    · subst hl
      have hnone : dictGet ts l = none := Option.not_isSome_iff_eq_none.mp hs
      simp [hnone, dictGet]
    · simp [hl]

theorem frozenLayers_get2 {V : Type} (curr : Client V) :
    ∀ (fl : TsT V) (ts ts2 : TsT V),
      (dictKeys fl).Nodup →
      (∀ p ∈ fl, (dictKeys p.2).Nodup) →
      frozenLayers curr ts fl = .ok ts2 →
      ∀ l n, dictGet2 ts2 l n =
        (dictGet fl l).elim (dictGet2 ts l n)
          (fun lt => (dictGet lt n).elim (dictGet2 ts l n)
            (fun f => if n = curr.name then dictGet curr.t l else some (pycopy f))) := by
  intro fl
  induction fl with
  | nil =>
    intro ts ts2 _ _ h l n
    have hts : ts = ts2 := by simpa [frozenLayers] using h
    subst hts
    simp [dictGet, Option.elim]
  | cons e rest ih =>
    intro ts ts2 hN hL h l n
    simp only [dictKeys, List.map_cons, List.nodup_cons] at hN
    obtain ⟨hnotin, hNr⟩ := hN
    have hNr2 : (dictKeys rest).Nodup := by simpa [dictKeys] using hNr
    have hunf : frozenLayers curr ts (e :: rest)
        = (match frozenLayer curr e.1
              (if (dictGet ts e.1).isSome then ts else dictInsert ts e.1 []) e.2 with
           | .ok ts3 => frozenLayers curr ts3 rest
           | .error er => .error er) := rfl
    cases hfl : frozenLayer curr e.1
        (if (dictGet ts e.1).isSome then ts else dictInsert ts e.1 []) e.2 with
    | error er =>
      rw [hunf, hfl] at h
      have h2 : (Except.error er : Except String (TsT V)) = Except.ok ts2 := h
      exact Except.noConfusion h2
    | ok ts1 =>
      have h' : frozenLayers curr ts1 rest = Except.ok ts2 := by
        rw [hunf, hfl] at h
        exact h
      rw [ih ts1 ts2 hNr2 (fun p hp => hL p (List.mem_cons_of_mem _ hp)) h' l n]
      have hchar := frozenLayer_get2 curr e.1 e.2 _ ts1
        (hL e (List.mem_cons_self _ _)) hfl
      by_cases hl : e.1 = l
      · have hrest : dictGet rest l = none := by
          rw [dictGet_eq_none_iff]
          intro hm
          apply hnotin
          rw [hl]
          simpa [dictKeys] using hm
        rw [hrest]
        simp only [Option.elim, dictGet, if_pos hl]
        rw [hchar l n, if_pos hl.symm]
        cases dictGet e.2 n with
        | none => simp [Option.elim, dictGet2_ensure, hl]
        | some f => simp [Option.elim, hl]
      · simp only [dictGet, if_neg hl]
        have hts1 : dictGet2 ts1 l n = dictGet2 ts l n := by
          rw [hchar l n, if_neg (fun hh => hl hh.symm), dictGet2_ensure]
        cases hr : dictGet rest l with
        | none => simp [Option.elim, hts1]
        | some lt =>
          simp only [Option.elim]
          cases dictGet lt n with
          | none => simp [Option.elim, hts1]
          | some f => simp [Option.elim]

theorem frozenLayers_ok {V : Type} (curr : Client V) :
    ∀ (fl : TsT V) (ts : TsT V),
      (∀ p ∈ fl, ∀ f, (curr.name, f) ∈ p.2 → (dictGet curr.t p.1).isSome) →
      ∃ ts2, frozenLayers curr ts fl = .ok ts2 := by
  intro fl
  induction fl with
  | nil => intro ts _; exact ⟨ts, rfl⟩
  | cons e rest ih =>
    intro ts hcond
    obtain ⟨ts1, h1⟩ := frozenLayer_ok curr e.1 e.2
      (if (dictGet ts e.1).isSome then ts else dictInsert ts e.1 [])
      (fun f hf => hcond e (List.mem_cons_self _ _) f hf)
    obtain ⟨ts2, h2⟩ := ih ts1 (fun p hp => hcond p (List.mem_cons_of_mem _ hp))
    refine ⟨ts2, ?_⟩
    rw [show frozenLayers curr ts (e :: rest)
        = (match frozenLayer curr e.1
              (if (dictGet ts e.1).isSome then ts else dictInsert ts e.1 []) e.2 with
           | .ok ts3 => frozenLayers curr ts3 rest
           | .error er => .error er) from rfl, h1]
    exact h2

theorem frozenZsLoop_get {V : Type} (curr : Client V) :
    ∀ (fz zs : ZsT V) (n : String),
      (dictKeys fz).Nodup →
      dictGet (frozenZsLoop curr zs fz) n =
        if n = curr.name then dictGet zs n
        else (dictGet fz n).elim (dictGet zs n) (fun zt => some (detachClone zt)) := by
  intro fz
  induction fz with
  | nil =>
    intro zs n _
    by_cases hn : n = curr.name <;> simp [frozenZsLoop, dictGet, Option.elim, hn]
  | cons e rest ih =>
    intro zs n hN
    simp only [dictKeys, List.map_cons, List.nodup_cons] at hN
    obtain ⟨hnotin, hNr⟩ := hN
    have hNr2 : (dictKeys rest).Nodup := by simpa [dictKeys] using hNr
    by_cases hc : e.1 = curr.name
    · rw [show frozenZsLoop curr zs (e :: rest)
          = if e.1 = curr.name then frozenZsLoop curr zs rest
            else frozenZsLoop curr (dictInsert zs e.1 (detachClone e.2)) rest
          from rfl, if_pos hc]
      rw [ih zs n hNr2]
      by_cases hn : n = curr.name
      · simp [hn]
      · have hne : ¬ e.1 = n := fun hh => hn (hh.symm.trans hc)
        simp only [dictGet, if_neg hne]
    · rw [show frozenZsLoop curr zs (e :: rest)
          = if e.1 = curr.name then frozenZsLoop curr zs rest
            else frozenZsLoop curr (dictInsert zs e.1 (detachClone e.2)) rest
          from rfl, if_neg hc]
      rw [ih _ n hNr2]
      by_cases hn : n = curr.name
      · simp only [if_pos hn]
        rw [dictGet_insert, if_neg (fun hh => hc (hn ▸ hh).symm)]
      · simp only [if_neg hn]
        by_cases he : e.1 = n
        · have hrest : dictGet rest n = none := by
            rw [dictGet_eq_none_iff]
            intro hm
            apply hnotin
            rw [he]
            simpa [dictKeys] using hm
          rw [hrest]
          simp only [Option.elim, dictGet, if_pos he]
          rw [dictGet_insert, if_pos he.symm]
        · simp only [dictGet, if_neg he]
          cases hr : dictGet rest n with
          | some zt => simp [Option.elim]
          | none =>
            simp only [Option.elim]
            rw [dictGet_insert, if_neg (fun hh => he hh.symm)]

theorem frozenZs_get {V : Type} (curr : Client V) (fz : ZsT V)
    (hN : (dictKeys fz).Nodup) (n : String) :
    dictGet (frozenZs curr fz) n =
      if curr.isGI then
        (if n = curr.name then some curr.z
         else (dictGet fz n).elim none (fun zt => some (detachClone zt)))
      else none := by
  unfold frozenZs
  by_cases hg : curr.isGI
  · simp only [if_pos hg]
    rw [frozenZsLoop_get curr fz [(curr.name, curr.z)] n hN]
    by_cases hn : n = curr.name
    · simp [hn, dictGet]
    · simp only [if_neg hn]
      have hcn : ¬ curr.name = n := fun hh => hn hh.symm
      have : dictGet [(curr.name, curr.z)] n = none := by
        simp [dictGet, hcn]
      rw [this]
  · simp [hg, dictGet]

theorem collect_vp_ts_spec {V : Type} (clients : List (String × Client V))
    (hN : (dictKeys clients).Nodup) (hT : ∀ p ∈ clients, (dictKeys p.2.t).Nodup)
    (l n : String) :
    dictGet2 (collect_vp clients).1 l n =
      (dictGet clients n).elim none (fun cl => (dictGet cl.t l).map pycopy) := by
  unfold collect_vp
  rw [collect_vp_aux_ts_get2 clients [] [] l n hN hT]
  cases dictGet clients n with
  | none => simp [Option.elim, dictGet2, dictGet]
  | some cl =>
    simp only [Option.elim]
    cases dictGet cl.t l with
    | none => simp [Option.elim, dictGet2, dictGet]
    | some f => simp [Option.elim]

theorem collect_vp_zs_spec {V : Type} (clients : List (String × Client V))
    (hN : (dictKeys clients).Nodup) (n : String) :
    dictGet (collect_vp clients).2 n =
      (dictGet clients n).elim none
        (fun cl => if cl.isGI then some (detachClone cl.z) else none) := by
  unfold collect_vp
  rw [collect_vp_aux_zs_get clients [] [] n hN]
  cases dictGet clients n with
  | none => simp [Option.elim, dictGet]
  | some cl =>
    simp only [Option.elim]
    by_cases hg : cl.isGI <;> simp [hg, dictGet]

theorem collect_vp_TsWF {V : Type} (clients : List (String × Client V)) :
    TsWF (collect_vp clients).1 :=
  TsWF_collect_vp_aux clients [] []
    ⟨by simp [dictKeys], by intro p hp; cases hp⟩

theorem collect_vp_zs_nodup {V : Type} (clients : List (String × Client V)) :
    (dictKeys (collect_vp clients).2).Nodup :=
  zsKeys_collect_vp_aux clients [] [] (by simp [dictKeys])

/-- C2: `collect_vp` followed immediately by `collect_frozen_vp` on the
snapshot it produced, with an active client `c` present in the client dict,
succeeds and returns a view in which (i) every other client's factor entry is
numerically identical to — and carries the same attachment as — the plain
snapshot entry (same domain, same payload), (ii) no other client's entry is
that client's live factor object, (iii) the active client's entries are
exactly its live factor objects (`curr_client.t[layer]`, gradient history
shared), (iv) for a GI client the returned inducing entry of `c` is the live
tensor `c.z`, and (v) every other client's inducing entry has the same
(detached) payload as the snapshot entry. -/
theorem collect_vp_then_frozen_spec {V : Type} (clients : List (String × Client V))
    (c : Client V)
    (hN : (dictKeys clients).Nodup)
    (hT : ∀ p ∈ clients, (dictKeys p.2.t).Nodup)
    (hmem : dictGet clients c.name = some c) :
    ∃ ts2 zs2,
      collect_frozen_vp (collect_vp clients).1 (collect_vp clients).2 c = .ok (ts2, zs2)
      ∧ (∀ l n, n ≠ c.name →
          (dictGet2 ts2 l n).map PyRef.data
            = (dictGet2 (collect_vp clients).1 l n).map PyRef.data)
      ∧ (∀ l n f2 cl f, n ≠ c.name → dictGet2 ts2 l n = some f2 →
          dictGet clients n = some cl → dictGet cl.t l = some f → f2 ≠ f)
      ∧ (∀ l, dictGet2 ts2 l c.name = dictGet c.t l)
      ∧ (c.isGI = true → dictGet zs2 c.name = some c.z)
      ∧ (c.isGI = true → ∀ n, n ≠ c.name →
          (dictGet zs2 n).map PyRef.data
            = (dictGet (collect_vp clients).2 n).map PyRef.data) := by
  have hWF := collect_vp_TsWF clients
  have hZN := collect_vp_zs_nodup clients
  -- the active client's name is never a `KeyError`: its snapshot entries all
  -- come from its own live factor dict
  have hcond : ∀ p ∈ (collect_vp clients).1, ∀ f, (c.name, f) ∈ p.2 →
      (dictGet c.t p.1).isSome := by
    intro p hp f hf
    have hl : dictGet (collect_vp clients).1 p.1 = some p.2 := by
      have : (p.1, p.2) ∈ (collect_vp clients).1 := by simpa using hp
      exact dictGet_of_mem_nodup hWF.1 this
    have hsome : (dictGet p.2 c.name).isSome := dictGet_isSome_of_mem hf
    obtain ⟨f1, hf1⟩ := Option.isSome_iff_exists.mp hsome
    have h2 : dictGet2 (collect_vp clients).1 p.1 c.name = some f1 := by
      unfold dictGet2
      rw [hl]
      simpa using hf1
    rw [collect_vp_ts_spec clients hN hT p.1 c.name, hmem] at h2
    simp only [Option.elim] at h2
    cases hct : dictGet c.t p.1 with
    | none => rw [hct] at h2; cases h2
    | some f0 => simp [hct]
  obtain ⟨ts2, hok⟩ := frozenLayers_ok c (collect_vp clients).1 [] hcond
  have hchar := frozenLayers_get2 c (collect_vp clients).1 [] ts2 hWF.1 hWF.2 hok
  have hcopy : ∀ l n, n ≠ c.name →
      dictGet2 ts2 l n = (dictGet2 (collect_vp clients).1 l n).map pycopy := by
    intro l n hn
    rw [hchar l n]
    unfold dictGet2
    cases dictGet (collect_vp clients).1 l with
    | none => simp [Option.elim, dictGet, dictGet2]
    | some lt =>
      simp only [Option.elim, Option.some_bind]
      cases dictGet lt n with
      | none => simp [Option.elim, dictGet, dictGet2]
      | some f => simp [Option.elim, if_neg hn]
  refine ⟨ts2, frozenZs c (collect_vp clients).2, ?_, ?_, ?_, ?_, ?_, ?_⟩
  · unfold collect_frozen_vp
    rw [hok]
  · intro l n hn
    rw [hcopy l n hn]
    cases dictGet2 (collect_vp clients).1 l n with
    | none => simp
    | some f => simp [pycopy]
  · intro l n f2 cl f hn h2 hcl hf
    rw [hcopy l n hn] at h2
    rw [collect_vp_ts_spec clients hN hT l n, hcl] at h2
    simp only [Option.elim, hf, Option.map_some'] at h2
    intro heq
    rw [← heq] at h2
    have h3 := congrArg PyRef.tag (Option.some.inj h2)
    simp only [pycopy] at h3
    omega
  · intro l
    rw [hchar l c.name]
    have hA := collect_vp_ts_spec clients hN hT l c.name
    rw [hmem] at hA
    simp only [Option.elim] at hA
    cases hfl : dictGet (collect_vp clients).1 l with
    | none =>
      simp only [Option.elim]
      have hnone : Option.map pycopy (dictGet c.t l) = none := by
        rw [← hA]
        unfold dictGet2
        rw [hfl]
        rfl
      have hct := Option.map_eq_none'.mp hnone
      simp [dictGet2, dictGet, hct]
    | some lt =>
      simp only [Option.elim]
      cases hlt : dictGet lt c.name with
      | none =>
        simp only [Option.elim]
        have hnone : Option.map pycopy (dictGet c.t l) = none := by
          rw [← hA]
          unfold dictGet2
          rw [hfl]
          simpa using hlt
        have hct := Option.map_eq_none'.mp hnone
        simp [dictGet2, dictGet, hct]
      | some f1 =>
        simp [Option.elim]
  · intro hg
    rw [frozenZs_get c (collect_vp clients).2 hZN c.name]
    simp [hg]
  · intro hg n hn
    rw [frozenZs_get c (collect_vp clients).2 hZN n]
    simp only [if_pos hg, if_neg hn]
    rw [collect_vp_zs_spec clients hN n]
    cases dictGet clients n with
    | none => simp [Option.elim]
    | some cl =>
      simp only [Option.elim]
      by_cases hgi : cl.isGI
      · simp [hgi, Option.elim, detachClone]
      · simp [hgi, Option.elim]

/-- Concrete clients for witnesses: two GI clients with distinct live
factor/tensor objects. -/
def clientsW : List (String × Client Nat) :=
  [("a", ⟨"a", true, ⟨0, ⟨10, true⟩⟩, [("layer0", ⟨1, ⟨11, true⟩⟩)]⟩),
   ("b", ⟨"b", true, ⟨2, ⟨20, true⟩⟩, [("layer0", ⟨3, ⟨21, true⟩⟩)]⟩)]

/-- Witness for C2: the two-client snapshot with active client `a`. -/
theorem collect_vp_then_frozen_spec_witness :
    ∃ ts2 zs2,
      collect_frozen_vp (collect_vp clientsW).1 (collect_vp clientsW).2
          ⟨"a", true, ⟨0, ⟨10, true⟩⟩, [("layer0", ⟨1, ⟨11, true⟩⟩)]⟩
        = .ok (ts2, zs2) := by
  obtain ⟨ts2, zs2, hok, _⟩ :=
    collect_vp_then_frozen_spec clientsW
      ⟨"a", true, ⟨0, ⟨10, true⟩⟩, [("layer0", ⟨1, ⟨11, true⟩⟩)]⟩
      (by decide) (by decide) (by decide)
  exact ⟨ts2, zs2, hok⟩

/-- C3 counterexample: calling `collect_frozen_vp` with a client (`"b"`)
whose name is absent from the frozen snapshot does NOT raise — it returns
normally, the single frozen entry of client `"a"` copied.  (No
`UnknownClientError` — nor any raise — exists anywhere in the function.) -/
theorem collect_frozen_vp_missing_client_returns_ok :
    collect_frozen_vp [("layer0", [("a", (⟨0, ⟨5, true⟩⟩ : PyRef Nat))])] []
        ⟨"b", false, ⟨0, ⟨0, true⟩⟩, []⟩
      = .ok ([("layer0", [("a", ⟨1, ⟨5, true⟩⟩)])], []) := by
  rfl

/-- C3 (amended): when the active client's name is absent from the frozen
snapshot, `collect_frozen_vp` returns normally (no exception is raised); for
a well-formed snapshot the returned factor view has no entry for that
client. -/
theorem collect_frozen_vp_missing_client_no_error {V : Type} (fts : TsT V)
    (fzs : ZsT V) (curr : Client V)
    (hW : TsWF fts)
    (habs : ∀ p ∈ fts, curr.name ∉ dictKeys p.2) :
    ∃ ts2 zs2, collect_frozen_vp fts fzs curr = .ok (ts2, zs2)
      ∧ ∀ l, dictGet2 ts2 l curr.name = none := by
  obtain ⟨ts2, hok⟩ := frozenLayers_ok curr fts []
    (fun p hp f hf =>
      absurd (List.mem_map.mpr ⟨(curr.name, f), hf, rfl⟩) (habs p hp))
  refine ⟨ts2, frozenZs curr fzs, ?_, ?_⟩
  · unfold collect_frozen_vp
    rw [hok]
  · intro l
    rw [frozenLayers_get2 curr fts [] ts2 hW.1 hW.2 hok l curr.name]
    cases hfl : dictGet fts l with
    | none => simp [Option.elim, dictGet2, dictGet]
    | some lt =>
      simp only [Option.elim]
      cases hlt : dictGet lt curr.name with
      | none => simp [Option.elim, dictGet2, dictGet]
      | some f =>
        exact absurd (List.mem_map.mpr ⟨(curr.name, f), mem_of_dictGet hlt, rfl⟩)
          (habs (l, lt) (mem_of_dictGet hfl))

/-- Witness for C3's amended theorem at the concrete missing-client input. -/
theorem collect_frozen_vp_missing_client_no_error_witness :
    ∃ ts2 zs2,
      collect_frozen_vp [("layer0", [("a", (⟨0, ⟨5, true⟩⟩ : PyRef Nat))])] []
          ⟨"b", false, ⟨0, ⟨0, true⟩⟩, []⟩ = .ok (ts2, zs2)
      ∧ ∀ l, dictGet2 ts2 l "b" = none :=
  collect_frozen_vp_missing_client_no_error
    [("layer0", [("a", ⟨0, ⟨5, true⟩⟩)])] [] ⟨"b", false, ⟨0, ⟨0, true⟩⟩, []⟩
    (by refine ⟨?_, ?_⟩ <;> decide) (by decide)
